import Mathlib

/-!
Shallow embedding of the parc repository's core algorithms:
the harmony resolver (src/source/theory/rns.py with the lookup tables of
src/source/constants.py), the beat-to-frame aligner and feature resampler
(src/theorytab/VAMP/extract_vamp_features.py), and the fixed-width windower
used by both the feature branch (chunkify_feature) and the label branch
(src/theorytab/create_label_segments.py).

Machine integers are modelled as Int (numpy int overflow is irrelevant at
these magnitudes); real-valued features as ℚ (the float computations at
issue are exact on the inputs considered); fallible code as Option.
-/

namespace Parc

/-! ## Constants (src/source/constants.py) -/

def STEP_SIZE : Nat := 32

def WINDOW_SIZE : Nat := 256

def LABEL_PADDING_VALUE : Int := -1

def FEATURE_PADDING_VALUE : ℚ := 0

/-- Python str.split(sep) on a string's characters: split at every
occurrence of the separator; n separators give n+1 (possibly empty) parts. -/
def splitOnChar (sep : Char) : List Char → List (List Char)
  | [] => [[]]
  | c :: cs =>
    if c == sep then [] :: splitOnChar sep cs
    else
      match splitOnChar sep cs with
      | [] => [[c]]
      | p :: ps => (c :: p) :: ps

/-- The chromatic note names, split from one space-separated string exactly
as constants.py builds them. -/
def CHROMATIC_SCALE : List String :=
  (splitOnChar ' ' "C C# D D# E F F# G G# A A# B".toList).map String.mk

def MODE_INTERVALS_LIST : List (String × List Int) :=
  [("major", [2, 2, 1, 2, 2, 2]),
   ("minor", [2, 1, 2, 2, 1, 2]),
   ("dorian", [2, 1, 2, 2, 2, 1]),
   ("phrygian", [1, 2, 2, 2, 1, 2]),
   ("lydian", [2, 2, 2, 1, 2, 2]),
   ("mixolydian", [2, 2, 1, 2, 2, 1]),
   ("locrian", [1, 2, 2, 1, 2, 2]),
   ("harmonicMinor", [2, 1, 2, 2, 1, 3]),
   ("phrygianDominant", [1, 3, 1, 2, 1, 2])]

/-- Dictionary lookup, `none` modelling a Python KeyError. -/
def MODE_INTERVALS (mode : String) : Option (List Int) :=
  (MODE_INTERVALS_LIST.find? (fun p => p.1 == mode)).map Prod.snd

def QUALITY_INTERVALS_LIST : List (String × List Int) :=
  [("D7", [4, 3, 3]), ("M", [4, 3]), ("M7", [4, 3, 4]), ("a", [4, 4]),
   ("a7", [4, 4, 2]), ("aM7", [4, 4, 3]), ("d", [3, 3]), ("d7", [3, 3, 3]),
   ("h7", [3, 3, 4]), ("m", [3, 4]), ("m7", [3, 4, 3]), ("mM7", [3, 4, 4]),
   ("oM7", [3, 3, 5])]

def QUALITY_INTERVALS (q : String) : Option (List Int) :=
  (QUALITY_INTERVALS_LIST.find? (fun p => p.1 == q)).map Prod.snd

def ACCIDENTAL_MAP_LIST : List (String × Int) :=
  [("bb", -2), ("b", -1), ("", 0), ("#", 1), ("##", 2)]

def ACCIDENTAL_MAP (a : String) : Option Int :=
  (ACCIDENTAL_MAP_LIST.find? (fun p => p.1 == a)).map Prod.snd

def DEGREE_MAP_LIST : List (String × Nat) :=
  [("I", 0), ("II", 1), ("III", 2), ("IV", 3), ("V", 4), ("VI", 5), ("VII", 6)]

def DEGREE_MAP (d : String) : Option Nat :=
  (DEGREE_MAP_LIST.find? (fun p => p.1 == d)).map Prod.snd

/-! ## Harmony resolver (src/source/theory/rns.py) -/

/-- Modelled from the spec: get_note_pc lives in source/utils.py, which is not
among the repository files; a note name maps to its pitch class, 0..11, in the
order of CHROMATIC_SCALE (spec section 3, PitchClass). -/
def get_note_pc (note : String) : Option Int :=
  (CHROMATIC_SCALE.findIdx? (fun n => n == note)).map (fun i => (i : Int))

/-- Running partial sums: np.cumsum. -/
def cumsumFrom (acc : Int) : List Int → List Int
  | [] => []
  | x :: xs => (acc + x) :: cumsumFrom (acc + x) xs

/-- np.cumsum([tonic_pc] + MODE_INTERVALS[mode]) % 12 (rns.py, get_scale_pcs).
Int.emod agrees with numpy remainder on a positive modulus. -/
def get_scale_pcs (tonic_pc : Int) (mode : String) : Option (List Int) :=
  (MODE_INTERVALS mode).map
    (fun ivs => (cumsumFrom 0 (tonic_pc :: ivs)).map (fun x => x % 12))

/-- Character class [#b] of the parse_rn pattern. -/
def isAccChar (c : Char) : Bool := c == '#' || c == 'b'

/-- Character class [IViv] of the parse_rn pattern. -/
def isDegChar (c : Char) : Bool := c == 'I' || c == 'V' || c == 'i' || c == 'v'

/-- Greedy match of [IViv]{1,3}: up to three leading degree characters and the
rest of the input; an empty first component means no match. -/
def takeDeg : List Char → List Char × List Char
  | [] => ([], [])
  | c1 :: t1 =>
    if isDegChar c1 then
      match t1 with
      | [] => ([c1], [])
      | c2 :: t2 =>
        if isDegChar c2 then
          match t2 with
          | [] => ([c1, c2], [])
          | c3 :: t3 =>
            if isDegChar c3 then ([c1, c2, c3], t3) else ([c1, c2], c3 :: t3)
        else ([c1], c2 :: t2)
    else ([], c1 :: t1)

/-- The trailing group `(.*)$` of the parse_rn pattern, applied to what is
left after the degree letters.  Python's dot does not match a newline and,
without re.MULTILINE, `$` matches at the end of the string or just before a
newline that ends the string: the remainder must be newline-free except for
an optional single final newline, and that final newline is left out of the
captured extension group. -/
def matchTailStar : List Char → Option (List Char)
  | [] => some []
  | c :: cs =>
    if c == '\n' then
      if cs.isEmpty then some [] else none
    else
      (matchTailStar cs).map (fun e => c :: e)

/-- re.match of the pattern `^([#b]?)([IViv]{1,3})(.*)$`  with Python's
greedy backtracking semantics, on the token's characters.  The optional
accidental group prefers one character; if no degree character follows, the
regex engine retries with an empty accidental, which can never succeed
because an accidental character is not a degree character.  The trailing
group is matchTailStar; whether it accepts the remainder does not depend on
how many degree characters the degree group absorbed, because moving degree
characters (never newlines) between the two groups preserves the position
of every newline relative to the end, so the single greedy attempt decides
the whole match. -/
def parse_rn_core (cs : List Char) : Option (List Char × List Char × List Char) :=
  match cs with
  | [] => none
  | c :: rest =>
    if isAccChar c then
      match takeDeg rest with
      | ([], _) => none
      | (d, e) =>
        match matchTailStar e with
        | none => none
        | some ext => some ([c], d, ext)
    else
      match takeDeg (c :: rest) with
      | ([], _) => none
      | (d, e) =>
        match matchTailStar e with
        | none => none
        | some ext => some ([], d, ext)

/-- parse_rn (rns.py): `none` models the raised ValueError (MalformedToken). -/
def parse_rn (rn : String) : Option (String × String × String) :=
  (parse_rn_core rn.toList).map
    (fun p => (String.mk p.1, String.mk p.2.1, String.mk p.2.2))

def major_map : List (String × String) :=
  [("7", "D7"), ("maj7", "M7"), ("+", "a"), ("+7", "a7"),
   ("+maj7", "aM7"), ("", "M")]

def minor_map : List (String × String) :=
  [("o", "d"), ("o7", "d7"), ("^o7", "h7"), ("7", "m7"),
   ("maj7", "mM7"), ("omaj7", "oM7"), ("", "m")]

/-- get_chord_quality (rns.py).  degree.isupper() on the nonempty all-letter
degree strings produced by parse_rn is: every character is upper case. -/
def get_chord_quality (degree extension : String) : Option String :=
  if degree.toList.all (fun c => c.isUpper) then
    (major_map.find? (fun p => p.1 == extension)).map Prod.snd
  else
    (minor_map.find? (fun p => p.1 == extension)).map Prod.snd

/-- Python str.replace of the two-character pattern "/o" by "^o", left to
right and non-overlapping (rns.py line 38). -/
def replaceSlashO : List Char → List Char
  | '/' :: 'o' :: rest => '^' :: 'o' :: replaceSlashO rest
  | c :: rest => c :: replaceSlashO rest
  | [] => []

/-- The part of get_rn_pitch_classes after the key scale is fixed: parse the
primary token, look the degree up in the (possibly derived) scale, add the
accidental offset, and stack the quality's intervals, everything mod 12. -/
def resolve_primary (first : List Char) (key_scale : List Int) : Option (List Int) := do
  let (accidental, degree, extension) ← parse_rn_core first
  let d ← DEGREE_MAP (String.mk (degree.map Char.toUpper))
  let a ← ACCIDENTAL_MAP (String.mk accidental)
  let q ← get_chord_quality (String.mk degree) (String.mk extension)
  let ivs ← QUALITY_INTERVALS q
  let root_pc := key_scale.getD d 0 + a
  pure ((cumsumFrom 0 (root_pc :: ivs)).map (fun x => x % 12))

/-- get_rn_pitch_classes (rns.py) up to the final string join: the resolved
pitch-class sequence.  The scale argument is the single string of the source
("C major"); scale.split() keeps the nonempty whitespace-separated parts.
Python's `second = parts[1] if len(parts) == 2 else None` followed by
`if second:` treats both None and the empty string as no secondary target. -/
def get_rn_pcs (rn scale : String) : Option (List Int) :=
  match (splitOnChar ' ' scale.toList).filter (fun s => !s.isEmpty) with
  | [tonic, mode] => do
    let tonic_pc ← get_note_pc (String.mk tonic)
    let key_scale ← get_scale_pcs tonic_pc (String.mk mode)
    let parts := splitOnChar '/' (replaceSlashO rn.toList)
    let first := parts.headD []
    let second := if parts.length = 2 then parts.getD 1 [] else []
    if second.isEmpty then
      resolve_primary first key_scale
    else do
      let (accidental, degree, _) ← parse_rn_core second
      let d ← DEGREE_MAP (String.mk (degree.map Char.toUpper))
      let a ← ACCIDENTAL_MAP (String.mk accidental)
      let key_tonic_pc := key_scale.getD d 0 + a
      let key_scale2 ← get_scale_pcs key_tonic_pc "major"
      resolve_primary first key_scale2
  | _ => none

/-- The source function's actual return value: the dash-joined rendering. -/
def get_rn_pitch_classes (rn scale : String) : Option String :=
  (get_rn_pcs rn scale).map
    (fun l => String.intercalate "-" (l.map (fun x => toString x)))

/-! ## Beat-to-frame aligner (extract_vamp_features.py, get_beats_to_frames)

The linear interpolant of scipy's interp1d through the anchors (0, 0) and
(num_beats, VAMP_FEATURE_STEP * num_frames), evaluated at the integer beats
np.arange(0, num_beats + 1e-4) = 0, 1, ..., num_beats, then converted by
librosa.time_to_frames, which is floor(time * sr / hop_length).  The float
arithmetic is modelled exactly over ℚ. -/

/-- VAMP_FEATURE_STEP = 2048 / SAMPLING_RATE (constants.py), as an exact
rational: the hop duration in seconds. -/
def VAMP_FEATURE_STEP : ℚ := 2048 / 44100

/-- The interp1d linear map through (0, 0) and (num_beats, hop * num_frames),
also used for extrapolation. -/
def beat_to_time (num_beats num_frames : Nat) (b : Nat) : ℚ :=
  (b : ℚ) * (VAMP_FEATURE_STEP * (num_frames : ℚ)) / (num_beats : ℚ)

/-- librosa.time_to_frames at sr=44100, hop_length=2048: the floored frame
index of a time in seconds. -/
def time_to_frames (t : ℚ) : Int :=
  Int.floor (t * 44100 / 2048)

/-- get_beats_to_frames (extract_vamp_features.py lines 46..51). -/
def get_beats_to_frames (num_beats num_frames : Nat) : List Int :=
  (List.range (num_beats + 1)).map
    (fun b => time_to_frames (beat_to_time num_beats num_frames b))

/-! ## Feature resampler (extract_vamp_features.py, resample_feature)

A frame matrix is a list of channel rows over ℚ; feature.shape[1] is the
common row length. -/

/-- feature.shape[1]: the number of frames (columns) of a channel × frames
matrix whose rows all have the same length. -/
def numFrames (feature : List (List ℚ)) : Nat := (feature.headD []).length

/-- All-or-nothing map over the rows: `none` as soon as one row fails. -/
def rowsMap (h : List ℚ → Option ℚ) : List (List ℚ) → Option (List ℚ)
  | [] => some []
  | r :: rs =>
    match h r, rowsMap h rs with
    | some v, some vs => some (v :: vs)
    | _, _ => none

/-- One resampled beat column (the loop body of resample_feature): the single
frame at min(b[i], num_frames - 1) when the boundary pair is degenerate,
otherwise the per-channel arithmetic mean of the frame slice [a, b).  `none`
models np.mean over an empty slice (a NaN column in numpy). -/
def beat_column (feature : List (List ℚ)) (a b : Nat) : Option (List ℚ) :=
  if a = b then
    some (feature.map (fun r => r.getD (min a (numFrames feature - 1)) 0))
  else
    rowsMap (fun r =>
      let s := (r.drop a).take (b - a)
      if s.length = 0 then none else some (s.sum / (s.length : ℚ))) feature

/-- The resampled columns for beats 0..n-1, in order; `none` as soon as one
beat column is undefined. -/
def buildCols (g : Nat → Option (List ℚ)) : Nat → Option (List (List ℚ))
  | 0 => some []
  | n + 1 =>
    match buildCols g n, g n with
    | some cs, some c => some (cs ++ [c])
    | _, _ => none

/-- np.stack(frames, axis=1) for a list of equal-length column vectors:
row c of the result is the c-th entry of each column. -/
def stack_cols (cols : List (List ℚ)) (nrows : Nat) : List (List ℚ) :=
  (List.range nrows).map (fun c => cols.map (fun col => col.getD c 0))

/-- resample_feature (extract_vamp_features.py lines 54..73).  num_beats is
len(beats_to_frames) - 1; `none` models the np.stack ValueError on an empty
frame list and the NaN columns of empty-slice means.  The optional
per-modality scaling is applied to the stacked table when present. -/
def resample_feature (feature : List (List ℚ)) (beats_to_frames : List Nat)
    (scaling : Option (List (List ℚ) → List (List ℚ))) : Option (List (List ℚ)) :=
  let num_beats := beats_to_frames.length - 1
  if num_beats = 0 then none
  else
    match buildCols
        (fun i => beat_column feature
          (beats_to_frames.getD i 0) (beats_to_frames.getD (i + 1) 0))
        num_beats with
    | none => none
    | some cols =>
      let stacked := stack_cols cols feature.length
      match scaling with
      | some f => some (f stacked)
      | none => some stacked

/-! ## Windower

chunkify_feature (extract_vamp_features.py lines 103..110): right-pad the
table to WINDOW_SIZE columns when it is narrower (np.pad with the default
constant 0), then view_as_windows with window (rows, WINDOW_SIZE) and stride
(rows, STEP_SIZE), which emits floor((L - WINDOW_SIZE) / STEP_SIZE) + 1
windows in increasing start-offset order, window j starting at column
j * STEP_SIZE. -/

/-- feature.shape[1] of a table stored as a list of rows. -/
def tableWidth {α : Type} (t : List (List α)) : Nat := (t.headD []).length

/-- np.pad(t, ((0, 0), (0, WINDOW_SIZE - t.shape[1]))) with pad value pv,
applied only when the table is narrower than the window. -/
def padTable {α : Type} (pv : α) (t : List (List α)) : List (List α) :=
  if tableWidth t < WINDOW_SIZE then
    t.map (fun r => r ++ List.replicate (WINDOW_SIZE - tableWidth t) pv)
  else t

/-- The number of windows view_as_windows yields along an axis of length L
with window WINDOW_SIZE and stride STEP_SIZE (L ≥ WINDOW_SIZE). -/
def windowCount (L : Nat) : Nat := (L - WINDOW_SIZE) / STEP_SIZE + 1

/-- Padding followed by view_as_windows over the full row dimension: the
generic fixed-width fixed-stride windower, with the modality's pad value. -/
def chunkify {α : Type} (pv : α) (t : List (List α)) : List (List (List α)) :=
  let tp := padTable pv t
  (List.range (windowCount (tableWidth tp))).map
    (fun j => tp.map (fun r => (r.drop (j * STEP_SIZE)).take WINDOW_SIZE))

/-- chunkify_feature (extract_vamp_features.py): np.pad's default constant
value is 0 = FEATURE_PADDING_VALUE. -/
def chunkify_feature (feature : List (List ℚ)) : List (List (List ℚ)) :=
  chunkify FEATURE_PADDING_VALUE feature

/-- Modelled from the spec: the label branch windows encode_labels' task × beat
table with the same view_as_windows call (create_label_segments.py line 55);
encode_labels itself lives in source/utils.py, which is not among the
repository files, and per the spec (sections 3 and 4.5) a label table narrower
than the window is right-padded with the label sentinel -1 before slicing. -/
def label_windows (labels : List (List Int)) : List (List (List Int)) :=
  chunkify LABEL_PADDING_VALUE labels

example : get_rn_pcs "I" "C major" = some [0, 4, 7] := by decide
example : get_rn_pcs "V/V" "C major" = some [2, 6, 9] := by decide
example : parse_rn "Iv" = some ("", "Iv", "") := by decide
example : parse_rn "X7" = none := by decide
example : parse_rn "bbI" = none := by decide
example : parse_rn "I\nx" = none := by decide
example : parse_rn "I7\n" = some ("", "I", "7") := by decide
example : get_rn_pcs "V/V/V" "C major" = some [7, 11, 2] := by decide
example : get_rn_pitch_classes "I" "C major" = some "0-4-7" := by decide
example : get_beats_to_frames 2 3 = [0, 1, 3] := by
  simp [get_beats_to_frames, beat_to_time, time_to_frames, VAMP_FEATURE_STEP,
    List.range_succ]
  norm_num
set_option maxRecDepth 10000 in
example : (chunkify_feature [List.replicate 300 0]).length = 2 := by
  simp only [chunkify_feature, chunkify, padTable, tableWidth, windowCount,
    WINDOW_SIZE, STEP_SIZE, List.headD_cons, List.length_replicate,
    List.length_map, List.length_range]
  norm_num
example : (chunkify_feature [List.replicate 40 0]).length = 1 := by
  simp only [chunkify_feature, chunkify, padTable, tableWidth, windowCount,
    WINDOW_SIZE, STEP_SIZE, List.headD_cons, List.length_replicate,
    List.length_map, List.length_range, List.length_append]
  norm_num
example :
    resample_feature [[1, 2, 3, 4]] [0, 2, 2, 4] none =
      some [[3/2, 3, 7/2]] := by
  simp [resample_feature, beat_column, buildCols, stack_cols, rowsMap,
    numFrames, List.range_succ]
  norm_num

/-! ## Helper lemmas on list indexing -/

lemma getD_mem {α : Type} (l : List α) (i : Nat) (d : α) (h : i < l.length) :
    l.getD i d ∈ l := by
  induction l generalizing i with
  | nil => simp at h
  | cons x xs ih =>
    cases i with
    | zero => simp
    | succ n =>
      have hmem := ih n (by simpa using h)
      rw [List.getD_cons_succ]
      exact List.mem_cons_of_mem x hmem

lemma getD_map_of_lt {α β : Type} (f : α → β) (l : List α) (i : Nat)
    (d : β) (d' : α) (h : i < l.length) :
    (l.map f).getD i d = f (l.getD i d') := by
  induction l generalizing i with
  | nil => simp at h
  | cons x xs ih =>
    cases i with
    | zero => rfl
    | succ n => simpa using ih n (by simpa using h)

lemma getD_append_lt {α : Type} (l1 l2 : List α) (i : Nat) (d : α)
    (h : i < l1.length) :
    (l1 ++ l2).getD i d = l1.getD i d := by
  induction l1 generalizing i with
  | nil => simp at h
  | cons x xs ih =>
    cases i with
    | zero => rfl
    | succ n => simpa using ih n (by simpa using h)

lemma getD_append_ge {α : Type} (l1 l2 : List α) (i : Nat) (d : α)
    (h : l1.length ≤ i) :
    (l1 ++ l2).getD i d = l2.getD (i - l1.length) d := by
  induction l1 generalizing i with
  | nil => simp
  | cons x xs ih =>
    cases i with
    | zero => simp at h
    | succ n =>
      have := ih n (by simpa using h)
      simpa using this

lemma getD_replicate {α : Type} (a d : α) (n i : Nat) (h : i < n) :
    (List.replicate n a).getD i d = a := by
  induction n generalizing i with
  | zero => simp at h
  | succ m ih =>
    cases i with
    | zero => rfl
    | succ k => simpa [List.replicate_succ] using ih k (by omega)

lemma getD_take {α : Type} (l : List α) (b i : Nat) (d : α) (h : i < b) :
    (l.take b).getD i d = l.getD i d := by
  induction l generalizing b i with
  | nil => simp
  | cons x xs ih =>
    cases b with
    | zero => simp at h
    | succ m =>
      cases i with
      | zero => rfl
      | succ k => simpa using ih m k (by omega)

lemma getD_drop {α : Type} (l : List α) (a i : Nat) (d : α) :
    (l.drop a).getD i d = l.getD (a + i) d := by
  induction l generalizing a with
  | nil => simp
  | cons x xs ih =>
    cases a with
    | zero => simp
    | succ m =>
      have hidx : m + 1 + i = (m + i) + 1 := by omega
      rw [hidx]
      simp only [List.drop_succ_cons, List.getD_cons_succ]
      exact ih m

lemma getD_range (n j : Nat) (d : Nat) (h : j < n) :
    (List.range n).getD j d = j := by
  induction n with
  | zero => simp at h
  | succ m ih =>
    by_cases hj : j < m
    · rw [List.range_succ, getD_append_lt _ _ _ _ (by simpa using hj)]
      exact ih hj
    · have hjm : j = m := by omega
      subst hjm
      rw [List.range_succ, getD_append_ge _ _ _ _ (by simp)]
      simp

lemma getD_range_map {β : Type} (f : Nat → β) (n j : Nat) (d : β) (h : j < n) :
    ((List.range n).map f).getD j d = f j := by
  rw [getD_map_of_lt f _ j d 0 (by simpa using h), getD_range _ _ _ h]

/-! ## Cumulative sums -/

lemma cumsumFrom_length (a : Int) (l : List Int) :
    (cumsumFrom a l).length = l.length := by
  induction l generalizing a with
  | nil => rfl
  | cons x xs ih => simp [cumsumFrom, ih]

lemma cumsumFrom_getD (l : List Int) (a : Int) (i : Nat) (h : i < l.length) :
    (cumsumFrom a l).getD i 0 = a + (l.take (i + 1)).sum := by
  induction l generalizing a i with
  | nil => simp at h
  | cons x xs ih =>
    cases i with
    | zero => simp [cumsumFrom]
    | succ n =>
      have hn : n < xs.length := by simpa using h
      simp only [cumsumFrom, List.getD_cons_succ, List.take_succ_cons,
        List.sum_cons]
      rw [ih (a + x) n hn]
      ring

/-- Every value MODE_INTERVALS yields is a six-step list: the 9 rows of the
table all have 6 entries. -/
lemma mode_intervals_length {mode : String} {ivs : List Int}
    (h : MODE_INTERVALS mode = some ivs) : ivs.length = 6 := by
  unfold MODE_INTERVALS at h
  rcases Option.map_eq_some'.mp h with ⟨p, hfind, hsnd⟩
  have hm := List.mem_of_find?_eq_some hfind
  subst hsnd
  fin_cases hm <;> rfl

/-- C7: for every tonic pitch class and mode of the fixed 9-mode table,
buildScale (get_scale_pcs) returns exactly 7 entries, entry i being the
cumulative sum of the tonic with the first i interval steps reduced mod 12,
the first entry the tonic mod 12, and every entry in [0, 12). -/
theorem build_scale_seven_entries (tonic : Int) (mode : String) (ivs : List Int)
    (h : MODE_INTERVALS mode = some ivs) :
    ∃ l, get_scale_pcs tonic mode = some l ∧ l.length = 7 ∧
      l.getD 0 0 = tonic % 12 ∧
      (∀ i < 7, l.getD i 0 = (tonic + (ivs.take i).sum) % 12) ∧
      ∀ x ∈ l, 0 ≤ x ∧ x < 12 := by
  have hlen6 := mode_intervals_length h
  refine ⟨(cumsumFrom 0 (tonic :: ivs)).map (fun x => x % 12), ?_, ?_, ?_, ?_, ?_⟩
  · simp [get_scale_pcs, h]
  · simp [cumsumFrom_length, hlen6]
  · have h0 : (0 : Nat) < (cumsumFrom 0 (tonic :: ivs)).length := by
      simp [cumsumFrom_length]
    rw [getD_map_of_lt _ _ _ _ 0 h0, cumsumFrom_getD _ _ _ (by simp)]
    simp
  · intro i hi
    have hi' : i < (tonic :: ivs).length := by simp [hlen6]; omega
    have hc : i < (cumsumFrom 0 (tonic :: ivs)).length := by
      simpa [cumsumFrom_length] using hi'
    rw [getD_map_of_lt _ _ _ _ 0 hc, cumsumFrom_getD _ _ _ hi']
    cases i with
    | zero => simp
    | succ n => simp [List.take_succ_cons]
  · intro x hx
    simp only [List.mem_map] at hx
    obtain ⟨y, -, rfl⟩ := hx
    exact ⟨Int.emod_nonneg y (by decide), Int.emod_lt_of_pos y (by decide)⟩

/-- Witness for C7 at tonic 5, mode dorian. -/
theorem build_scale_seven_entries_witness :
    ∃ l, get_scale_pcs 5 "dorian" = some l ∧ l.length = 7 ∧
      l.getD 0 0 = 5 % 12 ∧
      (∀ i < 7, l.getD i 0 = (5 + (([2, 1, 2, 2, 2, 1] : List Int).take i).sum) % 12) ∧
      ∀ x ∈ l, 0 ≤ x ∧ x < 12 :=
  build_scale_seven_entries 5 "dorian" [2, 1, 2, 2, 2, 1] (by decide)

/-- C5: the resolver sends the tonic triad of C major to 0-4-7 and the
applied dominant V/V in C major to 2-6-9 (the D major triad). -/
theorem resolve_tonic_and_applied_dominant :
    get_rn_pcs "I" "C major" = some [0, 4, 7] ∧
      get_rn_pitch_classes "I" "C major" = some "0-4-7" ∧
      get_rn_pcs "V/V" "C major" = some [2, 6, 9] ∧
      get_rn_pitch_classes "V/V" "C major" = some "2-6-9" := by
  refine ⟨by decide, by decide, by decide, by decide⟩

/-! ## The token grammar parse_rn actually accepts -/

lemma takeDeg_spec (cs : List Char) :
    (takeDeg cs).1 ++ (takeDeg cs).2 = cs ∧ (takeDeg cs).1.length ≤ 3 ∧
      ∀ c ∈ (takeDeg cs).1, isDegChar c = true := by
  rcases cs with _ | ⟨c1, _ | ⟨c2, _ | ⟨c3, t⟩⟩⟩
  · simp [takeDeg]
  · by_cases h1 : isDegChar c1 <;> simp [takeDeg, h1]
  · by_cases h1 : isDegChar c1 <;> by_cases h2 : isDegChar c2 <;>
      simp [takeDeg, h1, h2]
  · by_cases h1 : isDegChar c1 <;> by_cases h2 : isDegChar c2 <;>
      by_cases h3 : isDegChar c3 <;> simp [takeDeg, h1, h2, h3]

lemma takeDeg_deg_ne_nil {c : Char} (rest : List Char) (h : isDegChar c = true) :
    (takeDeg (c :: rest)).1 ≠ [] := by
  rcases rest with _ | ⟨c2, _ | ⟨c3, t⟩⟩
  · simp [takeDeg, h]
  · by_cases h2 : isDegChar c2 <;> simp [takeDeg, h, h2]
  · by_cases h2 : isDegChar c2 <;> by_cases h3 : isDegChar c3 <;>
      simp [takeDeg, h, h2, h3]

lemma acc_char_vals {c : Char} (h : isAccChar c = true) : c = '#' ∨ c = 'b' := by
  simpa [isAccChar, Bool.or_eq_true, beq_iff_eq] using h

lemma deg_char_vals {c : Char} (h : isDegChar c = true) :
    c = 'I' ∨ c = 'V' ∨ c = 'i' ∨ c = 'v' := by
  simp only [isDegChar, Bool.or_eq_true, beq_iff_eq] at h
  tauto

lemma deg_not_acc {c : Char} (h : isDegChar c = true) : isAccChar c = false := by
  rcases deg_char_vals h with rfl | rfl | rfl | rfl <;> decide

lemma deg_not_newline {c : Char} (h : isDegChar c = true) : c ≠ '\n' := by
  rcases deg_char_vals h with rfl | rfl | rfl | rfl <;> decide

/-- What matchTailStar accepts decomposes as a newline-free extension and an
optional single final newline, the extension being the captured group. -/
lemma matchTailStar_eq_some {l ext : List Char} (h : matchTailStar l = some ext) :
    ∃ t, l = ext ++ t ∧ (t = [] ∨ t = ['\n']) ∧ ∀ c ∈ ext, c ≠ '\n' := by
  induction l generalizing ext with
  | nil =>
    simp only [matchTailStar, Option.some.injEq] at h
    subst h
    exact ⟨[], rfl, Or.inl rfl, by simp⟩
  | cons c cs ih =>
    by_cases hc : c = '\n'
    · subst hc
      rcases cs with _ | ⟨x, xs⟩
      · simp [matchTailStar] at h
        subst h
        exact ⟨['\n'], rfl, Or.inr rfl, by simp⟩
      · simp [matchTailStar] at h
    · have hbeq : (c == '\n') = false := by simp [hc]
      simp only [matchTailStar, hbeq, Bool.false_eq_true, if_false] at h
      rcases Option.map_eq_some'.mp h with ⟨ext0, hm, hcons⟩
      obtain ⟨t, rfl, ht, hnl⟩ := ih hm
      exact ⟨t, by simp [← hcons], ht,
        fun x hx => by
          rw [← hcons] at hx
          rcases List.mem_cons.mp hx with rfl | hx
          · exact hc
          · exact hnl x hx⟩

/-- A newline-free list followed by an optional single newline is accepted
by matchTailStar, capturing the newline-free part. -/
lemma matchTailStar_of_clean (e t : List Char) (he : ∀ c ∈ e, c ≠ '\n')
    (ht : t = [] ∨ t = ['\n']) : matchTailStar (e ++ t) = some e := by
  induction e with
  | nil => rcases ht with rfl | rfl <;> rfl
  | cons c cs ih =>
    have hc : c ≠ '\n' := he c (by simp)
    have hbeq : (c == '\n') = false := by simp [hc]
    have hrec := ih (fun x hx => he x (by simp [hx]))
    have hstep : matchTailStar (c :: (cs ++ t)) =
        (matchTailStar (cs ++ t)).map (fun e => c :: e) := by
      simp [matchTailStar, hbeq]
    rw [List.cons_append, hstep, hrec, Option.map_some']

/-- Being a newline-free list plus an optional final newline is preserved by
dropping a prefix. -/
lemma clean_suffix (p s : List Char)
    (h : ∃ e t, p ++ s = e ++ t ∧ (∀ c ∈ e, c ≠ '\n') ∧ (t = [] ∨ t = ['\n'])) :
    ∃ e t, s = e ++ t ∧ (∀ c ∈ e, c ≠ '\n') ∧ (t = [] ∨ t = ['\n']) := by
  induction p generalizing s with
  | nil => simpa using h
  | cons c cs ih =>
    apply ih
    obtain ⟨e, t, heq, hnl, ht⟩ := h
    rcases e with _ | ⟨x, etail⟩
    · rcases ht with rfl | rfl
      · simp at heq
      · simp only [List.cons_append, List.nil_append, List.cons.injEq] at heq
        obtain ⟨-, hnil⟩ := heq
        exact ⟨[], [], by simp [hnil], by simp, Or.inl rfl⟩
    · simp only [List.cons_append, List.cons.injEq] at heq
      obtain ⟨-, hrest⟩ := heq
      exact ⟨etail, t, hrest, fun ch hch => hnl ch (by simp [hch]), ht⟩

/-- Any token of the form accidental ++ degree letters ++ newline-free
extension ++ optional final newline parses, and the accidental group is
exactly that accidental. -/
lemma parse_rn_core_succeeds (a d e t : List Char)
    (ha : a = [] ∨ a = ['#'] ∨ a = ['b']) (hdne : d ≠ [])
    (hdeg : ∀ c ∈ d, isDegChar c = true)
    (he : ∀ c ∈ e, c ≠ '\n') (ht : t = [] ∨ t = ['\n']) :
    ∃ d' ext', parse_rn_core (a ++ d ++ e ++ t) = some (a, d', ext') := by
  rcases d with _ | ⟨c, dtail⟩
  · exact absurd rfl hdne
  have hcdeg : isDegChar c = true := hdeg c (by simp)
  have hne := takeDeg_deg_ne_nil (dtail ++ e ++ t) hcdeg
  rcases htd : takeDeg (c :: (dtail ++ e ++ t)) with ⟨d', e'⟩
  rw [htd] at hne
  rcases d' with _ | ⟨x, xs⟩
  · exact absurd rfl hne
  obtain ⟨happ, -, -⟩ := takeDeg_spec (c :: (dtail ++ e ++ t))
  rw [htd] at happ
  have hclean : ∃ e0 t0, e' = e0 ++ t0 ∧ (∀ ch ∈ e0, ch ≠ '\n') ∧
      (t0 = [] ∨ t0 = ['\n']) := by
    apply clean_suffix (x :: xs)
    refine ⟨(c :: dtail) ++ e, t, ?_, ?_, ht⟩
    · rw [happ]
      simp
    · intro ch hch
      rcases List.mem_append.mp hch with hch | hch
      · exact deg_not_newline (hdeg ch hch)
      · exact he ch hch
  obtain ⟨e0, t0, he0, hnl0, ht0⟩ := hclean
  have hext : matchTailStar e' = some e0 := by
    rw [he0]
    exact matchTailStar_of_clean e0 t0 hnl0 ht0
  simp only [List.append_assoc] at htd
  rcases ha with rfl | rfl | rfl
  · refine ⟨x :: xs, e0, ?_⟩
    have hgoal : ([] : List Char) ++ (c :: dtail) ++ e ++ t =
        c :: (dtail ++ e ++ t) := by simp
    rw [hgoal]
    simp [parse_rn_core, deg_not_acc hcdeg, htd, hext]
  · refine ⟨x :: xs, e0, ?_⟩
    have hgoal : (['#'] : List Char) ++ (c :: dtail) ++ e ++ t =
        '#' :: c :: (dtail ++ e ++ t) := by simp
    rw [hgoal]
    simp [parse_rn_core, isAccChar, htd, hext]
  · refine ⟨x :: xs, e0, ?_⟩
    have hgoal : (['b'] : List Char) ++ (c :: dtail) ++ e ++ t =
        'b' :: c :: (dtail ++ e ++ t) := by simp
    rw [hgoal]
    simp [parse_rn_core, isAccChar, htd, hext]

/-- The exact language parse_rn accepts: an optional single-character
accidental, then one to three characters from I, V, i, v with upper and
lower case mixing freely, then a newline-free extension, then at most one
final newline. -/
lemma parse_rn_core_isSome_iff (cs : List Char) :
    (parse_rn_core cs).isSome = true ↔
      ∃ a d e t : List Char, cs = a ++ d ++ e ++ t ∧
        (a = [] ∨ a = ['#'] ∨ a = ['b']) ∧ d ≠ [] ∧ d.length ≤ 3 ∧
        (∀ c ∈ d, isDegChar c = true) ∧ (∀ c ∈ e, c ≠ '\n') ∧
        (t = [] ∨ t = ['\n']) := by
  constructor
  · intro h
    rcases cs with _ | ⟨c, rest⟩
    · simp [parse_rn_core] at h
    by_cases hacc : isAccChar c
    · obtain ⟨happ, hlen, hdeg⟩ := takeDeg_spec rest
      rcases hd : takeDeg rest with ⟨d, e0⟩
      rw [hd] at happ hlen hdeg
      have hdne : d ≠ [] := by
        intro hnil
        rw [hnil] at hd
        simp [parse_rn_core, hacc, hd] at h
      rcases hmt : matchTailStar e0 with _ | ext
      · exfalso
        rcases d with _ | ⟨x, xs⟩
        · exact hdne rfl
        simp [parse_rn_core, hacc, hd, hmt] at h
      · obtain ⟨t, he0, ht, hnl⟩ := matchTailStar_eq_some hmt
        refine ⟨[c], d, ext, t, ?_, ?_, hdne, hlen, hdeg, hnl, ht⟩
        · rw [show ([c] : List Char) ++ d ++ ext ++ t = c :: (d ++ (ext ++ t))
            by simp, ← he0, happ]
        · rcases acc_char_vals hacc with rfl | rfl <;> simp
    · obtain ⟨happ, hlen, hdeg⟩ := takeDeg_spec (c :: rest)
      rcases hd : takeDeg (c :: rest) with ⟨d, e0⟩
      rw [hd] at happ hlen hdeg
      have hdne : d ≠ [] := by
        intro hnil
        rw [hnil] at hd
        simp [parse_rn_core, hacc, hd] at h
      rcases hmt : matchTailStar e0 with _ | ext
      · exfalso
        rcases d with _ | ⟨x, xs⟩
        · exact hdne rfl
        simp [parse_rn_core, hacc, hd, hmt] at h
      · obtain ⟨t, he0, ht, hnl⟩ := matchTailStar_eq_some hmt
        refine ⟨[], d, ext, t, ?_, Or.inl rfl, hdne, hlen, hdeg, hnl, ht⟩
        rw [show ([] : List Char) ++ d ++ ext ++ t = d ++ (ext ++ t) by simp,
          ← he0, happ]
  · rintro ⟨a, d, e, t, rfl, ha, hdne, hlen, hdeg, he, ht⟩
    obtain ⟨d', ext', hp⟩ := parse_rn_core_succeeds a d e t ha hdne hdeg he ht
    simp only [← List.append_assoc, hp, Option.isSome_some]

/-- C3 (amended): parse_rn fails exactly on the tokens outside the grammar
of an optional single accidental character, one to three degree letters from
I, V, i, v in freely mixed case, a newline-free extension, and at most one
final newline; X7 fails, but a mixed-case degree such as Iv is accepted, not
rejected. -/
theorem parse_rn_grammar :
    (∀ rn : String, (parse_rn rn).isSome = true ↔
        ∃ a d e t : List Char, rn.toList = a ++ d ++ e ++ t ∧
          (a = [] ∨ a = ['#'] ∨ a = ['b']) ∧ d ≠ [] ∧ d.length ≤ 3 ∧
          (∀ c ∈ d, isDegChar c = true) ∧ (∀ c ∈ e, c ≠ '\n') ∧
          (t = [] ∨ t = ['\n'])) ∧
      parse_rn "X7" = none ∧ parse_rn "Iv" = some ("", "Iv", "") := by
  refine ⟨fun rn => ?_, by decide, by decide⟩
  rw [parse_rn, Option.isSome_map']
  exact parse_rn_core_isSome_iff rn.toList

/-- C3 counterexample: the degree letters of Iv mix upper and lower case,
yet parse_rn accepts the token, against the claim that every mixed-case
token fails with MalformedToken. -/
theorem parse_rn_accepts_mixed_case :
    parse_rn "Iv" = some ("", "Iv", "") ∧ (parse_rn "Iv").isSome = true := by
  refine ⟨by decide, by decide⟩

/-- C4 (amended): of the five-symbol accidental table only the single
character accidentals (flat, none, sharp) can open a token: each of those
followed by degree letters and a well-formed tail parses with exactly that
accidental component, while every token starting with the double accidental
bb or ## is rejected, whatever follows. -/
theorem parse_rn_single_char_accidentals :
    (∀ a d e t : List Char, (a = [] ∨ a = ['#'] ∨ a = ['b']) → d ≠ [] →
        d.length ≤ 3 → (∀ c ∈ d, isDegChar c = true) →
        (∀ c ∈ e, c ≠ '\n') → (t = [] ∨ t = ['\n']) →
        ∃ d' ext', parse_rn_core (a ++ d ++ e ++ t) = some (a, d', ext')) ∧
      (∀ rest : List Char, parse_rn_core ('b' :: 'b' :: rest) = none ∧
        parse_rn_core ('#' :: '#' :: rest) = none) ∧
      parse_rn "##I" = none ∧ parse_rn "bbIV" = none := by
  refine ⟨fun a d e t ha hdne _ hdeg he ht =>
      parse_rn_core_succeeds a d e t ha hdne hdeg he ht,
    fun rest => ⟨?_, ?_⟩, by decide, by decide⟩
  · simp [parse_rn_core, isAccChar, takeDeg, isDegChar]
  · simp [parse_rn_core, isAccChar, takeDeg, isDegChar]

/-- C4 counterexample: the double flat of the accidental table followed by a
valid degree is rejected by parse_rn, against the claim that every accidental
symbol of the five-symbol table succeeds. -/
theorem parse_rn_rejects_double_flat : parse_rn "bbI" = none := by decide

/-- C10: a token whose normalized form splits into three or more parts is
resolved exactly like a token carrying its primary part alone: the secondary
branch is skipped, every part after the first separator is ignored, and the
primary part is resolved against the original scale. -/
theorem extra_separators_ignored (rn rn' scale : String)
    (p1 p2 p3 : List Char) (rest : List (List Char))
    (h1 : splitOnChar '/' (replaceSlashO rn.toList) = p1 :: p2 :: p3 :: rest)
    (h2 : splitOnChar '/' (replaceSlashO rn'.toList) = [p1]) :
    get_rn_pcs rn scale = get_rn_pcs rn' scale := by
  unfold get_rn_pcs
  rcases hs : (splitOnChar ' ' scale.toList).filter (fun s => !s.isEmpty) with
    _ | ⟨t, _ | ⟨m, _ | ⟨x, xs⟩⟩⟩
  · rw [hs]
  · rw [hs]
  · simp only [hs]
    have hne : (p1 :: p2 :: p3 :: rest).length ≠ 2 := by simp
    rcases hnote : get_note_pc (String.mk t) with _ | tpc
    · simp [hnote]
    rcases hks : get_scale_pcs tpc (String.mk m) with _ | ks
    · simp [hnote, hks]
    simp only [String.toList] at h1 h2
    simp [hnote, hks, h1, h2, hne]
  · rw [hs]

/-- Witness for C10 at the doubly applied token V/V/V in C major, which the
resolver treats as the plain dominant V. -/
theorem extra_separators_ignored_witness :
    get_rn_pcs "V/V/V" "C major" = get_rn_pcs "V" "C major" :=
  extra_separators_ignored "V/V/V" "V" "C major" ['V'] ['V'] ['V'] []
    (by decide) (by decide)

/-- C8: for positive num_beats and num_frames the aligner returns exactly
num_beats + 1 frame boundaries; boundary b is the floor of the linearly
interpolated time at beat b divided by the hop duration, which simplifies to
floor(b * num_frames / num_beats); and the sequence is monotonically
non-decreasing. -/
theorem beats_to_frames_boundaries (num_beats num_frames : Nat)
    (hb : 1 ≤ num_beats) (hf : 1 ≤ num_frames) :
    (get_beats_to_frames num_beats num_frames).length = num_beats + 1 ∧
      (∀ b ≤ num_beats,
        (get_beats_to_frames num_beats num_frames).getD b 0 =
          Int.floor (((b : ℚ) * (num_frames : ℚ)) / (num_beats : ℚ))) ∧
      ∀ i j, i ≤ j → j ≤ num_beats →
        (get_beats_to_frames num_beats num_frames).getD i 0 ≤
          (get_beats_to_frames num_beats num_frames).getD j 0 := by
  have hnb0 : (num_beats : ℚ) ≠ 0 := Nat.cast_ne_zero.mpr (by omega)
  have hval : ∀ b ≤ num_beats,
      (get_beats_to_frames num_beats num_frames).getD b 0 =
        Int.floor (((b : ℚ) * (num_frames : ℚ)) / (num_beats : ℚ)) := by
    intro b hble
    rw [get_beats_to_frames, getD_range_map _ _ _ _ (by omega)]
    unfold time_to_frames beat_to_time VAMP_FEATURE_STEP
    congr 1
    field_simp
    ring
  refine ⟨by simp [get_beats_to_frames], hval, ?_⟩
  intro i j hij hj
  rw [hval i (le_trans hij hj), hval j hj]
  apply Int.floor_le_floor
  have hc : (0 : ℚ) < (num_beats : ℚ) := by
    exact_mod_cast Nat.lt_of_lt_of_le Nat.zero_lt_one hb
  apply div_le_div_of_nonneg_right ?_ (le_of_lt hc)
  have hcast : (i : ℚ) ≤ (j : ℚ) := by exact_mod_cast hij
  exact mul_le_mul_of_nonneg_right hcast (by positivity)

/-- Witness for C8 at num_beats 2, num_frames 3. -/
theorem beats_to_frames_boundaries_witness :
    (get_beats_to_frames 2 3).length = 2 + 1 :=
  (beats_to_frames_boundaries 2 3 (by norm_num) (by norm_num)).1

/-! ## Windower lemmas -/

lemma tableWidth_of_rows {α : Type} (t : List (List α)) (T : Nat) (hne : t ≠ [])
    (hrows : ∀ r ∈ t, r.length = T) : tableWidth t = T := by
  rcases t with _ | ⟨r0, rs⟩
  · exact absurd rfl hne
  · simpa [tableWidth] using hrows r0 (by simp)

lemma padTable_length {α : Type} (pv : α) (t : List (List α)) :
    (padTable pv t).length = t.length := by
  unfold padTable
  split <;> simp

lemma padTable_width {α : Type} (pv : α) (t : List (List α)) (T : Nat)
    (hne : t ≠ []) (hrows : ∀ r ∈ t, r.length = T) :
    tableWidth (padTable pv t) = max T WINDOW_SIZE := by
  have hw := tableWidth_of_rows t T hne hrows
  rcases t with _ | ⟨r0, rs⟩
  · exact absurd rfl hne
  have hr0 : r0.length = T := hrows r0 (by simp)
  by_cases hlt : T < WINDOW_SIZE
  · simp only [padTable, hw, hlt, if_true, List.map_cons]
    simp only [tableWidth, List.headD_cons, List.length_append,
      List.length_replicate, hr0]
    omega
  · simp only [padTable, hw, hlt, if_false]
    exact (Nat.max_eq_left (Nat.le_of_not_lt hlt)).symm

lemma padTable_row {α : Type} (pv : α) (t : List (List α)) (T : Nat)
    (hne : t ≠ []) (hrows : ∀ r ∈ t, r.length = T) (c : Nat) (hc : c < t.length) :
    (padTable pv t).getD c [] =
      if T < WINDOW_SIZE then
        t.getD c [] ++ List.replicate (WINDOW_SIZE - T) pv
      else t.getD c [] := by
  unfold padTable
  rw [tableWidth_of_rows t T hne hrows]
  split
  · exact getD_map_of_lt _ _ _ _ [] hc
  · rfl

lemma chunkify_count {α : Type} (pv : α) (t : List (List α)) (T : Nat)
    (hne : t ≠ []) (hrows : ∀ r ∈ t, r.length = T) :
    (chunkify pv t).length = (max T WINDOW_SIZE - WINDOW_SIZE) / STEP_SIZE + 1 := by
  unfold chunkify windowCount
  simp [padTable_width pv t T hne hrows]

lemma chunkify_entry {α : Type} (pv : α) (t : List (List α)) (T : Nat)
    (hne : t ≠ []) (hrows : ∀ r ∈ t, r.length = T) (j c k : Nat)
    (hj : j < (chunkify pv t).length) (hc : c < t.length) (hk : k < WINDOW_SIZE) :
    (((chunkify pv t).getD j []).getD c []).getD k pv =
      if j * STEP_SIZE + k < T then
        (t.getD c []).getD (j * STEP_SIZE + k) pv
      else pv := by
  have hjn : j < windowCount (tableWidth (padTable pv t)) := by
    have hlen : (chunkify pv t).length = windowCount (tableWidth (padTable pv t)) := by
      simp [chunkify]
    rw [hlen] at hj
    exact hj
  have hwj : (chunkify pv t).getD j [] =
      (padTable pv t).map (fun r => (r.drop (j * STEP_SIZE)).take WINDOW_SIZE) := by
    unfold chunkify
    exact getD_range_map _ _ _ _ hjn
  rw [hwj]
  have hc' : c < (padTable pv t).length := by
    rw [padTable_length]
    exact hc
  rw [getD_map_of_lt _ _ _ _ [] hc', getD_take _ _ _ _ hk, getD_drop,
    padTable_row pv t T hne hrows c hc]
  have hrc : (t.getD c []).length = T := by
    exact hrows _ (getD_mem t c [] hc)
  have hcount := chunkify_count pv t T hne hrows
  rw [hcount] at hj
  by_cases hwin : T < WINDOW_SIZE
  · rw [if_pos hwin]
    have hmax : max T WINDOW_SIZE = WINDOW_SIZE := by omega
    rw [hmax] at hj
    have hj0 : j = 0 := by
      simp only [Nat.sub_self, Nat.zero_div] at hj
      omega
    subst hj0
    simp only [Nat.zero_mul, Nat.zero_add]
    by_cases hkT : k < T
    · rw [if_pos hkT, getD_append_lt _ _ _ _ (by rw [hrc]; exact hkT)]
    · rw [if_neg hkT, getD_append_ge _ _ _ _ (by rw [hrc]; omega), hrc,
        getD_replicate _ _ _ _ (by omega)]
  · have hmax : max T WINDOW_SIZE = T := by omega
    rw [hmax] at hj
    have hj32 : j * STEP_SIZE ≤ T - WINDOW_SIZE := by
      have hj' : j ≤ (T - WINDOW_SIZE) / STEP_SIZE := by omega
      calc j * STEP_SIZE ≤ ((T - WINDOW_SIZE) / STEP_SIZE) * STEP_SIZE :=
            Nat.mul_le_mul_right _ hj'
        _ ≤ T - WINDOW_SIZE := Nat.div_mul_le_self _ _
    have hlt : j * STEP_SIZE + k < T := by
      have h256 : WINDOW_SIZE ≤ T := Nat.le_of_not_lt hwin
      omega
    rw [if_neg hwin, if_pos hlt]

/-- C2: with rows of common width T, both the feature windower and the
(spec-modelled) label windower emit floor((max(T, 256) - 256) / 32) + 1
windows, hence always at least one; window j reads the padded table at
start offset j * 32, every in-range position showing the original entry and
every position at or beyond T showing the modality's padding value (-1 for
labels, 0 for features). -/
theorem windower_pads_and_counts (T : Nat) (lt : List (List Int)) (ft : List (List ℚ))
    (hlne : lt ≠ []) (hlrows : ∀ r ∈ lt, r.length = T)
    (hfne : ft ≠ []) (hfrows : ∀ r ∈ ft, r.length = T) :
    (label_windows lt).length = (max T WINDOW_SIZE - WINDOW_SIZE) / STEP_SIZE + 1 ∧
      (chunkify_feature ft).length = (max T WINDOW_SIZE - WINDOW_SIZE) / STEP_SIZE + 1 ∧
      1 ≤ (label_windows lt).length ∧ 1 ≤ (chunkify_feature ft).length ∧
      (∀ j < (label_windows lt).length, ∀ c < lt.length, ∀ k < WINDOW_SIZE,
        (((label_windows lt).getD j []).getD c []).getD k LABEL_PADDING_VALUE =
          if j * STEP_SIZE + k < T then
            (lt.getD c []).getD (j * STEP_SIZE + k) LABEL_PADDING_VALUE
          else LABEL_PADDING_VALUE) ∧
      (∀ j < (chunkify_feature ft).length, ∀ c < ft.length, ∀ k < WINDOW_SIZE,
        (((chunkify_feature ft).getD j []).getD c []).getD k FEATURE_PADDING_VALUE =
          if j * STEP_SIZE + k < T then
            (ft.getD c []).getD (j * STEP_SIZE + k) FEATURE_PADDING_VALUE
          else FEATURE_PADDING_VALUE) := by
  refine ⟨chunkify_count _ _ T hlne hlrows, chunkify_count _ _ T hfne hfrows, ?_, ?_,
    fun j hj c hc k hk => chunkify_entry _ _ T hlne hlrows j c k hj hc hk,
    fun j hj c hc k hk => chunkify_entry _ _ T hfne hfrows j c k hj hc hk⟩
  · rw [label_windows, chunkify_count _ _ T hlne hlrows]
    exact Nat.le_add_left 1 _
  · rw [chunkify_feature, chunkify_count _ _ T hfne hfrows]
    exact Nat.le_add_left 1 _

/-- Witness for C2 at T = 40: the windower still emits a window. -/
theorem windower_pads_and_counts_witness :
    (label_windows [List.replicate 40 (0 : Int)]).length =
      (max 40 WINDOW_SIZE - WINDOW_SIZE) / STEP_SIZE + 1 :=
  (windower_pads_and_counts 40 [List.replicate 40 (0 : Int)]
    [List.replicate 40 (0 : ℚ)] (by simp) (by simp) (by simp) (by simp)).1

/-- C1: label tables and feature tables of the same width num_beats produce
the same number of segments under the shared window parameters, across the
label branch and all three feature modalities. -/
theorem segment_counts_agree (num_beats : Nat) (lt : List (List Int))
    (chroma basschroma spectrum : List (List ℚ))
    (hl : lt ≠ []) (hlrows : ∀ r ∈ lt, r.length = num_beats)
    (hcne : chroma ≠ []) (hcrows : ∀ r ∈ chroma, r.length = num_beats)
    (hbne : basschroma ≠ []) (hbrows : ∀ r ∈ basschroma, r.length = num_beats)
    (hsne : spectrum ≠ []) (hsrows : ∀ r ∈ spectrum, r.length = num_beats) :
    (label_windows lt).length = (chunkify_feature chroma).length ∧
      (chunkify_feature chroma).length = (chunkify_feature basschroma).length ∧
      (chunkify_feature basschroma).length = (chunkify_feature spectrum).length := by
  rw [label_windows, chunkify_feature, chunkify_feature, chunkify_feature,
    chunkify_count _ _ num_beats hl hlrows,
    chunkify_count _ _ num_beats hcne hcrows,
    chunkify_count _ _ num_beats hbne hbrows,
    chunkify_count _ _ num_beats hsne hsrows]
  exact ⟨rfl, rfl, rfl⟩

/-- C6: for a token with exactly one secondary separator whose parts parse,
the resolver takes the target pitch class to be the original scale's degree
entry plus the target's accidental offset, builds a major scale on it
whatever the original mode was, and roots the chord at that derived scale's
degree entry plus the primary accidental offset, reduced mod 12. -/
theorem secondary_target_resolution
    (rn scale : String) (tonicCs modeCs : List Char) (tpc : Int) (ks : List Int)
    (first second acc1 deg1 ext1 acc2 deg2 ext2 : List Char)
    (d1 d2 : Nat) (a1 a2 : Int) (q : String) (ivs : List Int)
    (hscale : (splitOnChar ' ' scale.toList).filter (fun s => !s.isEmpty) =
      [tonicCs, modeCs])
    (hnote : get_note_pc (String.mk tonicCs) = some tpc)
    (hks : get_scale_pcs tpc (String.mk modeCs) = some ks)
    (hsplit : splitOnChar '/' (replaceSlashO rn.toList) = [first, second])
    (hp2 : parse_rn_core second = some (acc2, deg2, ext2))
    (hd2 : DEGREE_MAP (String.mk (deg2.map Char.toUpper)) = some d2)
    (ha2 : ACCIDENTAL_MAP (String.mk acc2) = some a2)
    (hp1 : parse_rn_core first = some (acc1, deg1, ext1))
    (hd1 : DEGREE_MAP (String.mk (deg1.map Char.toUpper)) = some d1)
    (ha1 : ACCIDENTAL_MAP (String.mk acc1) = some a1)
    (hq : get_chord_quality (String.mk deg1) (String.mk ext1) = some q)
    (hivs : QUALITY_INTERVALS q = some ivs) :
    ∃ ms l, get_scale_pcs (ks.getD d2 0 + a2) "major" = some ms ∧
      get_rn_pcs rn scale = some l ∧
      l.headD 0 = (ms.getD d1 0 + a1) % 12 := by
  have hsne : second ≠ [] := by
    intro h
    rw [h] at hp2
    simp [parse_rn_core] at hp2
  have hms : get_scale_pcs (ks.getD d2 0 + a2) "major" =
      some ((cumsumFrom 0 ((ks.getD d2 0 + a2) :: [2, 2, 1, 2, 2, 2])).map
        (fun x => x % 12)) := by
    simp only [get_scale_pcs,
      show MODE_INTERVALS "major" = some [2, 2, 1, 2, 2, 2] from rfl,
      Option.map_some']
  refine ⟨_, (cumsumFrom 0
      ((((cumsumFrom 0 ((ks.getD d2 0 + a2) :: [2, 2, 1, 2, 2, 2])).map
          (fun x => x % 12)).getD d1 0 + a1) :: ivs)).map (fun x => x % 12),
    hms, ?_, ?_⟩
  · unfold get_rn_pcs
    simp only [hscale]
    rcases second with _ | ⟨sc, st⟩
    · exact absurd rfl hsne
    simp only [String.toList] at hsplit
    simp [hnote, hks, hsplit, hp2, hd2, ha2, hms, resolve_primary,
      hp1, hd1, ha1, hq, hivs]
    simp only [List.getD_eq_getElem?_getD] at hms
    simp [hms]
  · simp [cumsumFrom]

/-- Witness for C6 at the token V/ii in C major: the target is degree ii of
C major (pitch class 2), the derived scale is D major, and the root is its
fifth degree, pitch class 9. -/
theorem secondary_target_resolution_witness :
    ∃ ms l, get_scale_pcs (([0, 2, 4, 5, 7, 9, 11] : List Int).getD 1 0 + 0)
        "major" = some ms ∧
      get_rn_pcs "V/ii" "C major" = some l ∧
      l.headD 0 = (ms.getD 4 0 + 0) % 12 :=
  secondary_target_resolution "V/ii" "C major" ['C']
    ['m', 'a', 'j', 'o', 'r'] 0 [0, 2, 4, 5, 7, 9, 11]
    ['V'] ['i', 'i'] [] ['V'] [] [] ['i', 'i'] []
    4 1 0 0 "M" [4, 3]
    (by decide) (by decide) (by decide) (by decide) (by decide) (by decide)
    (by decide) (by decide) (by decide) (by decide) (by decide) (by decide)

/-- Witness for C1 at num_beats = 1 with one-channel tables. -/
theorem segment_counts_agree_witness :
    (label_windows [[(0 : Int)]]).length = (chunkify_feature [[(0 : ℚ)]]).length :=
  (segment_counts_agree 1 [[(0 : Int)]] [[(0 : ℚ)]] [[(0 : ℚ)]] [[(0 : ℚ)]]
    (by simp) (by simp) (by simp) (by simp) (by simp) (by simp) (by simp) (by simp)).1

/-! ## Resampler lemmas -/

lemma rowsMap_eq_map (h : List ℚ → Option ℚ) (v : List ℚ → ℚ)
    (rows : List (List ℚ)) (H : ∀ r ∈ rows, h r = some (v r)) :
    rowsMap h rows = some (rows.map v) := by
  induction rows with
  | nil => rfl
  | cons r rs ih =>
    simp only [rowsMap, H r (by simp), ih (fun x hx => H x (by simp [hx])),
      List.map_cons]

lemma buildCols_spec (g : Nat → Option (List ℚ)) (n : Nat)
    (H : ∀ i < n, ∃ c, g i = some c) :
    ∃ cs, buildCols g n = some cs ∧ cs.length = n ∧
      ∀ i < n, g i = some (cs.getD i []) := by
  induction n with
  | zero => exact ⟨[], rfl, rfl, fun i hi => absurd hi (by omega)⟩
  | succ m ih =>
    obtain ⟨cs, hcs, hlen, hval⟩ := ih (fun i hi => H i (by omega))
    obtain ⟨c, hc⟩ := H m (by omega)
    refine ⟨cs ++ [c], ?_, by simp [hlen], ?_⟩
    · simp [buildCols, hcs, hc]
    · intro i hi
      by_cases him : i < m
      · rw [getD_append_lt _ _ _ _ (by rw [hlen]; exact him)]
        exact hval i him
      · have hieq : i = m := by omega
        subst hieq
        rw [getD_append_ge _ _ _ _ (by rw [hlen]), hlen, Nat.sub_self]
        simpa using hc

/-- C9: under in-range non-decreasing boundaries, the resampler returns a
channel × num_beats table whose beat-i column is the single frame at index
min(boundary i, num_frames - 1) when boundary i equals boundary (i+1), and
otherwise the per-channel arithmetic mean of the frames in the half-open
range from boundary i to boundary (i+1). -/
theorem resample_feature_columns (feature : List (List ℚ)) (b2f : List Nat)
    (num_beats F : Nat)
    (hb : b2f.length = num_beats + 1) (hnb : 1 ≤ num_beats)
    (hfne : feature ≠ []) (hrows : ∀ r ∈ feature, r.length = F) (_hF : 1 ≤ F)
    (hmono : ∀ i < num_beats, b2f.getD i 0 ≤ b2f.getD (i + 1) 0)
    (hlast : b2f.getD num_beats 0 ≤ F) :
    ∃ R, resample_feature feature b2f none = some R ∧
      R.length = feature.length ∧ (∀ row ∈ R, row.length = num_beats) ∧
      ∀ i < num_beats, ∀ c < feature.length,
        (R.getD c []).getD i 0 =
          if b2f.getD i 0 = b2f.getD (i + 1) 0 then
            (feature.getD c []).getD (min (b2f.getD i 0) (F - 1)) 0
          else
            (((feature.getD c []).drop (b2f.getD i 0)).take
                (b2f.getD (i + 1) 0 - b2f.getD i 0)).sum /
              ((b2f.getD (i + 1) 0 - b2f.getD i 0 : Nat) : ℚ) := by
  have hchain : ∀ i j, i ≤ j → j ≤ num_beats →
      b2f.getD i 0 ≤ b2f.getD j 0 := by
    intro i j hij hj
    induction j with
    | zero =>
      rw [Nat.le_zero.mp hij]
    | succ m ihm =>
      by_cases heq : i = m + 1
      · rw [heq]
      · exact le_trans (ihm (by omega) (by omega)) (hmono m (by omega))
  have hnumF : numFrames feature = F := by
    have := tableWidth_of_rows feature F hfne hrows
    simpa [tableWidth, numFrames] using this
  have hcol : ∀ i, i < num_beats →
      beat_column feature (b2f.getD i 0) (b2f.getD (i + 1) 0) =
        some (feature.map (fun r =>
          if b2f.getD i 0 = b2f.getD (i + 1) 0 then
            r.getD (min (b2f.getD i 0) (F - 1)) 0
          else
            ((r.drop (b2f.getD i 0)).take
                (b2f.getD (i + 1) 0 - b2f.getD i 0)).sum /
              ((b2f.getD (i + 1) 0 - b2f.getD i 0 : Nat) : ℚ))) := by
    intro i hi
    by_cases hab : b2f.getD i 0 = b2f.getD (i + 1) 0
    · simp only [beat_column, if_pos hab, hnumF]
    · have hlt : b2f.getD i 0 < b2f.getD (i + 1) 0 :=
        lt_of_le_of_ne (hmono i hi) hab
      have hub : b2f.getD (i + 1) 0 ≤ F :=
        le_trans (hchain (i + 1) num_beats (by omega) le_rfl) hlast
      simp only [beat_column, if_neg hab]
      apply rowsMap_eq_map
      intro r hr
      have hrF : r.length = F := hrows r hr
      have hslen : ((r.drop (b2f.getD i 0)).take
          (b2f.getD (i + 1) 0 - b2f.getD i 0)).length =
          b2f.getD (i + 1) 0 - b2f.getD i 0 := by
        simp only [List.length_take, List.length_drop, hrF]
        omega
      simp only [hslen]
      rw [if_neg (by omega)]
  obtain ⟨cs, hcs, hcslen, hcsval⟩ := buildCols_spec
    (fun i => beat_column feature (b2f.getD i 0) (b2f.getD (i + 1) 0))
    num_beats (fun i hi => ⟨_, hcol i hi⟩)
  refine ⟨stack_cols cs feature.length, ?_, by simp [stack_cols], ?_, ?_⟩
  · have hlen' : b2f.length - 1 = num_beats := by omega
    simp only [resample_feature, hlen']
    rw [if_neg (by omega), hcs]
  · intro row hrow
    simp only [stack_cols, List.mem_map] at hrow
    obtain ⟨c, -, rfl⟩ := hrow
    simp [hcslen]
  · intro i hi c hc
    rw [show (stack_cols cs feature.length).getD c [] =
        cs.map (fun col => col.getD c 0) from getD_range_map _ _ _ _ hc]
    rw [getD_map_of_lt _ _ _ _ [] (by rw [hcslen]; exact hi)]
    have hval := hcsval i hi
    rw [hcol i hi] at hval
    have hcseq : cs.getD i [] = feature.map (fun r =>
        if b2f.getD i 0 = b2f.getD (i + 1) 0 then
          r.getD (min (b2f.getD i 0) (F - 1)) 0
        else
          ((r.drop (b2f.getD i 0)).take
              (b2f.getD (i + 1) 0 - b2f.getD i 0)).sum /
            ((b2f.getD (i + 1) 0 - b2f.getD i 0 : Nat) : ℚ)) :=
      (Option.some.inj hval).symm
    rw [hcseq, getD_map_of_lt _ _ _ _ [] hc]

/-- Witness for C9 at a one-channel four-frame matrix with boundaries
0, 2, 2, 4: a mean column, a degenerate column, and another mean column. -/
theorem resample_feature_columns_witness :
    ∃ R, resample_feature [[1, 2, 3, 4]] [0, 2, 2, 4] none = some R ∧
      R.length = ([[1, 2, 3, 4]] : List (List ℚ)).length ∧
      (∀ row ∈ R, row.length = 3) ∧
      ∀ i < 3, ∀ c < ([[1, 2, 3, 4]] : List (List ℚ)).length,
        (R.getD c []).getD i 0 =
          if ([0, 2, 2, 4] : List Nat).getD i 0 =
              ([0, 2, 2, 4] : List Nat).getD (i + 1) 0 then
            (([[1, 2, 3, 4]] : List (List ℚ)).getD c []).getD
              (min (([0, 2, 2, 4] : List Nat).getD i 0) (4 - 1)) 0
          else
            (((([[1, 2, 3, 4]] : List (List ℚ)).getD c []).drop
                  (([0, 2, 2, 4] : List Nat).getD i 0)).take
                (([0, 2, 2, 4] : List Nat).getD (i + 1) 0 -
                  ([0, 2, 2, 4] : List Nat).getD i 0)).sum /
              ((([0, 2, 2, 4] : List Nat).getD (i + 1) 0 -
                  ([0, 2, 2, 4] : List Nat).getD i 0 : Nat) : ℚ) :=
  resample_feature_columns [[1, 2, 3, 4]] [0, 2, 2, 4] 3 4
    (by decide) (by decide) (by decide)
    (by intro r hr; simp at hr; simp [hr])
    (by decide)
    (by decide)
    (by decide)

end Parc
